import Mathlib

/-!
Verification development for the CSI-Viewer image gallery (`server.py`).

The file shallowly embeds the glue logic of the server — the hour sort
key, image pagination, the path safety guard, the hour aggregator and the
week aggregator — as executable Lean definitions translated from the
Python source, and proves or refutes the specified properties about them.

Python integers are modelled as `Int`, Python lists as `List`, fallible
steps (e.g. `int(...)`, indexing) as `Option`, and the filesystem as
explicit lists of named entries.  Python's stable `sorted` is modelled by
`List.insertionSort` (stable, and kernel-evaluable on concrete inputs);
string manipulation is implemented structurally over character lists with
the same semantics as the Python originals.
-/

namespace CSIViewer

/-! ### Python string/list primitives -/

/-- Python `str.split(sep)` for a one-character separator: splitting an
empty string yields `[""]`, and every occurrence of the separator starts
a new (possibly empty) field. -/
def pySplit (sep : Char) : List Char → List (List Char)
  | [] => [[]]
  | c :: rest =>
    match pySplit sep rest with
    | [] => [[c]]
    | a :: as => if c = sep then [] :: a :: as else (c :: a) :: as

/-- Python `str.lower()` (ASCII case folding, which is all the server's
inputs use). -/
def pyLower (cs : List Char) : List Char := cs.map Char.toLower

/-- Python `str.strip()`: remove leading and trailing whitespace. -/
def pyStrip (cs : List Char) : List Char :=
  ((cs.dropWhile Char.isWhitespace).reverse.dropWhile Char.isWhitespace).reverse

/-- Digits-only character run to `Nat`: `some` iff the list is a
non-empty run of ASCII digits (the core of Python `int(...)` parsing). -/
def digitsToNat (cs : List Char) : Option Nat :=
  if cs ≠ [] ∧ cs.all Char.isDigit then
    some (cs.foldl (fun a c => a * 10 + (c.toNat - 48)) 0)
  else none

/-- Model of Python `int(s)`: optional surrounding whitespace (stripped),
an optional sign, then at least one decimal digit; anything else raises
`ValueError`, modelled as `none`. -/
def pyInt (s : List Char) : Option Int :=
  match pyStrip s with
  | '+' :: rest => (digitsToNat rest).map Int.ofNat
  | '-' :: rest => (digitsToNat rest).map (fun n => -(n : Int))
  | cs => (digitsToNat cs).map Int.ofNat

/-- Python string comparison `a <= b`: lexicographic on code points. -/
def pyStrLe : List Char → List Char → Bool
  | [], _ => true
  | _ :: _, [] => false
  | c :: cs, d :: ds =>
    if c.toNat < d.toNat then true
    else if d.toNat < c.toNat then false
    else pyStrLe cs ds

/-- The proposition form of `pyStrLe`, as a sort relation on strings. -/
def strLe (a b : String) : Prop := pyStrLe a.toList b.toList = true

instance : DecidableRel strLe := fun _ _ => instDecidableEqBool _ _

/-- Resolve one Python slice index against a list of length `len`:
negative indices count from the end, and the result is clamped into
`[0, len]`. -/
def pySliceIdx (len : Nat) (i : Int) : Nat :=
  if i < 0 then (max ((len : Int) + i) 0).toNat else min i.toNat len

/-- Model of Python list slicing `l[start:stop]` with `Int` bounds. -/
def pySlice (l : List α) (start stop : Int) : List α :=
  (l.take (pySliceIdx l.length stop)).drop (pySliceIdx l.length start)

/-! ### Hour Sort Key (`sort_key` in `get_hour_data`, server.py 200–212) -/

/-- The `try:` body of `sort_key`: lower-case, split on `"_"`, parse the
first token with `int(...)`, default the second token to `"am"` when
absent, then convert to a 24-hour value.  `none` models an exception
escaping the body. -/
def sortKeyTry (hourStr : String) : Option Int := do
  let parts := pySplit '_' (pyLower hourStr.toList)
  let first ← parts.head?
  let hourNum ← pyInt first
  let ampm := if parts.length > 1 then parts.getD 1 [] else ['a', 'm']
  let hourNum := if ampm = ['p', 'm'] ∧ hourNum ≠ 12 then hourNum + 12 else hourNum
  let hourNum := if ampm = ['a', 'm'] ∧ hourNum = 12 then 0 else hourNum
  pure hourNum

/-- Model of `sort_key` (server.py 200–212): the `try` body with the
`except Exception: return 99` fallback. -/
def sort_key (hourStr : String) : Int :=
  (sortKeyTry hourStr).getD 99

/-- Helper: the first underscore-separated token of the lower-cased
input, the one `sort_key` feeds to `int(...)`. -/
def firstTok (s : String) : List Char :=
  (pySplit '_' (pyLower s.toList)).headD []

/-! ### Image Pagination (`show_hour`, server.py 125–137) -/

/-- Constant `IMAGES_PER_PAGE` (server.py 126). -/
def IMAGES_PER_PAGE : Nat := 12

/-- The page slice computed by `show_hour` (server.py 133–135):
`all_images[(page-1)*IMAGES_PER_PAGE : page*IMAGES_PER_PAGE]` with
Python slice semantics. -/
def images_on_page (allImages : List String) (page : Int) : List String :=
  let startIndex := (page - 1) * (IMAGES_PER_PAGE : Int)
  let endIndex := startIndex + (IMAGES_PER_PAGE : Int)
  pySlice allImages startIndex endIndex

/-- Model of `total_pages` (server.py 137), generalized over the page size:
`(total_images + per - 1) // per`. -/
def total_pages (totalImages per : Nat) : Nat :=
  (totalImages + per - 1) / per

/-! ### Hour Aggregator (`get_hour_data`, server.py 193–223) -/

/-- An entry inside an hour-bucket directory: a named child which may
itself be a directory holding files. -/
structure SubEntry where
  name : String
  isDir : Bool
  files : List String
deriving DecidableEq

/-- An entry inside a day directory: a named child (candidate hour
bucket) with its own children. -/
structure HourEntry where
  name : String
  isDir : Bool
  children : List SubEntry
deriving DecidableEq

/-- The sort relation realized by `sorted(hours_list, key=sort_key)`. -/
def hourKeyLe (a b : HourEntry) : Prop := sort_key a.name ≤ sort_key b.name

instance : DecidableRel hourKeyLe := fun _ _ => Int.decLe _ _

/-- Model of `images[0] if images else None` for one hour directory, where
`images = sorted(os.listdir(hour_path))` (server.py 220–221). -/
def hourThumb (h : HourEntry) : Option String :=
  (List.insertionSort strLe (h.children.map SubEntry.name)).head?

/-- One iteration of the `for hour in sorted_hours` loop
(server.py 217–222): skip non-directories, otherwise append the
`{hour, thumbnail}` record. -/
def hourStep (acc : List (String × Option String)) (h : HourEntry) :
    List (String × Option String) :=
  if h.isDir then acc ++ [(h.name, hourThumb h)] else acc

/-- Model of `get_hour_data` (server.py 193–223): return `[]` unless the day path
is a directory; otherwise sort the day's entries by `sort_key` and, for
each entry that is a directory, append `(name, thumbnail)` where the
thumbnail is the first element of the lexicographically sorted listing
of that hour directory, or `None` when the listing is empty. -/
def get_hour_data (dayIsDir : Bool) (dayEntries : List HourEntry) :
    List (String × Option String) :=
  if dayIsDir then (List.insertionSort hourKeyLe dayEntries).foldl hourStep []
  else []

/-- The Hour Aggregator as the specification describes it, for
refinement comparison with `get_hour_data`: only hour buckets whose
`normal` subdirectory exists are listed, and the thumbnail is the
lexicographically first file of that `normal` subdirectory, or `none`
if it is empty. -/
def getHourDataSpec (dayEntries : List HourEntry) :
    List (String × Option String) :=
  (List.insertionSort hourKeyLe dayEntries).foldl (fun acc h =>
    if h.isDir then
      match h.children.find? (fun c => c.name == "normal" && c.isDir) with
      | some normal =>
          acc ++ [(h.name, (List.insertionSort strLe normal.files).head?)]
      | none => acc
    else acc) []

/-! ### Week Aggregator (`group_by_weeks`, server.py 175–191)

`datetime.strptime(item, "%Y-%m-%d")` is modelled faithfully to CPython's
`_strptime`: `%Y` matches exactly four digits, while `%m` and `%d` match
one or two digits (the Python documentation states that the leading zero
is optional for `%m` and `%d` in `strptime`), and the resulting triple
must be a valid Gregorian date.  Date arithmetic (`date.weekday()`,
`timedelta`) is modelled on day numbers counted from 0000-03-01. -/

/-- Gregorian leap-year test. -/
def isLeap (y : Nat) : Bool := y % 4 == 0 && (y % 100 != 0 || y % 400 == 0)

/-- Number of days in a month. -/
def daysInMonth (y m : Nat) : Nat :=
  if m = 2 then (if isLeap y then 29 else 28)
  else if m = 4 ∨ m = 6 ∨ m = 9 ∨ m = 11 then 30
  else 31

/-- A month token of `strptime`'s `%m`: one or two digits, value 1–12. -/
def parseMonth (cs : List Char) : Option Nat := do
  let v ← digitsToNat cs
  if cs.length ≤ 2 ∧ 1 ≤ v ∧ v ≤ 12 then some v else none

/-- A day token of `strptime`'s `%d`: one or two digits, value 1–31. -/
def parseDay (cs : List Char) : Option Nat := do
  let v ← digitsToNat cs
  if cs.length ≤ 2 ∧ 1 ≤ v ∧ v ≤ 31 then some v else none

/-- Model of `datetime.strptime(s, "%Y-%m-%d")`, as a year/month/day triple:
exactly three dash-separated tokens, a four-digit year, lenient month
and day tokens, and validity of the resulting calendar date (otherwise
`ValueError`, modelled as `none`). -/
def parseYMD (s : String) : Option (Nat × Nat × Nat) :=
  match pySplit '-' s.toList with
  | [ys, ms, ds] => do
    let y ← if ys.length = 4 then digitsToNat ys else none
    let m ← parseMonth ms
    let d ← parseDay ds
    if 1 ≤ y ∧ d ≤ daysInMonth y m then some (y, m, d) else none
  | _ => none

/-- Day number of a date, counted from 0000-03-01 (March-based civil
calendar). -/
def rataDie (y m d : Nat) : Int :=
  let ys : Int := if m ≤ 2 then (y : Int) - 1 else (y : Int)
  let ms : Int := if m ≤ 2 then (m : Int) + 9 else (m : Int) - 3
  365 * ys + ys / 4 - ys / 100 + ys / 400 + (153 * ms + 2) / 5 + (d : Int) - 1

/-- Python `date.weekday()`: Monday is 0, Sunday is 6. -/
def weekdayOf (rd : Int) : Int := (rd + 2) % 7

/-- Inverse of `rataDie` for non-negative day numbers (standard
civil-from-days algorithm on the March-based calendar). -/
def civilFromDays (z : Int) : Nat × Nat × Nat :=
  let zn := z.toNat
  let era := zn / 146097
  let doe := zn % 146097
  let yoe := (doe - doe / 1460 + doe / 36524 - doe / 146096) / 365
  let y0 := yoe + era * 400
  let doy := doe - (365 * yoe + yoe / 4 - yoe / 100)
  let mp := (5 * doy + 2) / 153
  let d := doy - (153 * mp + 2) / 5 + 1
  let m := if mp < 10 then mp + 3 else mp - 9
  (if m ≤ 2 then y0 + 1 else y0, m, d)

/-- Decimal digit character of `n mod 10`. -/
def digitChar (n : Nat) : Char := Char.ofNat (48 + n % 10)

/-- Two-digit zero-padded rendering (`strftime` `%d`, `%m`). -/
def pad2 (n : Nat) : List Char := [digitChar (n / 10), digitChar n]

/-- Unpadded decimal rendering for years up to 9999 (`strftime` `%Y`). -/
def natChars (n : Nat) : List Char :=
  if n < 10 then [digitChar n]
  else if n < 100 then [digitChar (n / 10), digitChar n]
  else if n < 1000 then [digitChar (n / 100), digitChar (n / 10), digitChar n]
  else [digitChar (n / 1000), digitChar (n / 100), digitChar (n / 10), digitChar n]

/-- Rendering `strftime('%d/%m/%Y')`. -/
def fmtDMY (ymd : Nat × Nat × Nat) : String :=
  ⟨pad2 ymd.2.2 ++ '/' :: pad2 ymd.2.1 ++ '/' :: natChars ymd.1⟩

/-- Model of Python `date ± timedelta(days=...)`: the result must stay
within `date.min = 0001-01-01` and `date.max = 9999-12-31`, otherwise
`OverflowError` is raised, modelled as `none`. -/
def dateAdd (rd days : Int) : Option Int :=
  let r := rd + days
  if rataDie 1 1 1 ≤ r ∧ r ≤ rataDie 9999 12 31 then some r else none

/-- The week label computed at server.py 185–187: format the Monday of
the date's week (`date - timedelta(days=date.weekday())`) and the Sunday
(`monday + timedelta(days=6)`) as `'%d/%m/%Y - %d/%m/%Y'`.  `none`
models an `OverflowError` escaping from the `timedelta` arithmetic; the
Sunday computation overflows `date.max` exactly for the dates 9999-12-27
through 9999-12-31 (9999-12-27 is a Monday), and the Monday computation
can never underflow because 0001-01-01 is itself a Monday. -/
def week_label (y m d : Nat) : Option String :=
  let rd := rataDie y m d
  (dateAdd rd (-(weekdayOf rd))).bind (fun monday =>
    (dateAdd monday 6).map (fun sunday =>
      fmtDMY (civilFromDays monday) ++ " - " ++ fmtDMY (civilFromDays sunday)))

/-- A `{'path': item, 'display': date.strftime('%d/%m/%Y')}` record. -/
structure DayRec where
  path : String
  display : String
deriving DecidableEq, Repr

/-- Parse one directory name and build its week label and day record
(server.py 184–189).  `.ok none` models the `except ValueError:
continue` branch (unparseable name, silently skipped); `.error ()`
models an uncaught `OverflowError` from the week arithmetic, which
`except ValueError` (server.py 190) does not catch and which therefore
aborts the whole aggregation. -/
def toWeekRec (nm : String) : Except Unit (Option (String × DayRec)) :=
  match parseYMD nm with
  | none => .ok none
  | some ymd =>
    match week_label ymd.1 ymd.2.1 ymd.2.2 with
    | none => .error ()
    | some label => .ok (some (label, ⟨nm, fmtDMY ymd⟩))

/-- Model of `weeks[week_label].append(...)` preceded by
`if week_label not in weeks: weeks[week_label] = []`, on an
insertion-ordered mapping (Python dict) modelled as an association
list. -/
def insertRec (weeks : List (String × List DayRec)) (l : String) (r : DayRec) :
    List (String × List DayRec) :=
  if (weeks.map Prod.fst).contains l then
    weeks.map (fun b => if b.1 = l then (b.1, b.2 ++ [r]) else b)
  else weeks ++ [(l, [r])]

/-- One iteration of the `for item in items` loop (server.py 181–190):
skip non-directories and unparseable names, insert parsed records under
their week label, and propagate the uncaught `OverflowError`. -/
def stepWeek (w : List (String × List DayRec)) (e : String × Bool) :
    Except Unit (List (String × List DayRec)) :=
  if e.2 then
    match toWeekRec e.1 with
    | .error u => .error u
    | .ok none => .ok w
    | .ok (some lr) => .ok (insertRec w lr.1 lr.2)
  else .ok w

/-- The successful-path result of one loop iteration: what `stepWeek`
produces whenever it does not raise. -/
def stepWeekOk (w : List (String × List DayRec)) (e : String × Bool) :
    List (String × List DayRec) :=
  if e.2 then
    match toWeekRec e.1 with
    | .ok (some lr) => insertRec w lr.1 lr.2
    | _ => w
  else w

/-- Whether one loop iteration raises the uncaught `OverflowError`. -/
def badEntry (e : String × Bool) : Bool :=
  e.2 && (match toWeekRec e.1 with | .error _ => true | .ok _ => false)

/-- The relation realized by `sorted(os.listdir(base_path), reverse=True)`
on directory entries: descending code-point order of names. -/
def nameGe (a b : String × Bool) : Prop := pyStrLe b.1.toList a.1.toList = true

instance : DecidableRel nameGe := fun _ _ => instDecidableEqBool _ _

/-- The `for` loop over the listing, threaded through `Except`: a raised
`OverflowError` aborts the remaining iterations and escapes. -/
def foldWeeks (items : List (String × Bool))
    (acc : Except Unit (List (String × List DayRec))) :
    Except Unit (List (String × List DayRec)) :=
  items.foldl (fun acc e => acc.bind (fun w => stepWeek w e)) acc

/-- Model of `group_by_weeks` (server.py 175–191): `.ok []` when the base
path does not exist; otherwise fold the loop body over the reverse-sorted
directory listing, with `.error ()` when the uncaught `OverflowError`
escapes.  An entry is a name paired with its `isdir` status. -/
def group_by_weeks (baseExists : Bool) (entries : List (String × Bool)) :
    Except Unit (List (String × List DayRec)) :=
  if baseExists then foldWeeks (List.insertionSort nameGe entries) (.ok [])
  else .ok []

/-! ### Path Safety Guard (`serve_image_path`, server.py 164–170)

POSIX path handling as implemented by CPython's `posixpath`:
`os.path.join` discards the left part when the right part is absolute,
`os.path.abspath(p)` is `normpath(join(cwd, p))` for relative `p`, and
`normpath` collapses empty components, `'.'` and `'..'` purely
textually. -/

/-- Python `str.startswith`, computed structurally over the character lists. -/
def strStartsWith (a b : String) : Bool := b.toList.isPrefixOf a.toList

/-- Python `str.endswith`, computed structurally over the character lists. -/
def strEndsWith (a b : String) : Bool := b.toList.isSuffixOf a.toList

/-- Model of `os.path.isabs` (POSIX). -/
def isAbs (p : String) : Bool := strStartsWith p "/"

/-- Two-argument `os.path.join` (POSIX): an absolute second part
replaces the first; otherwise concatenate with a single separator. -/
def pathJoin (a b : String) : String :=
  if strStartsWith b "/" then b
  else if a = "" ∨ strEndsWith a "/" then a ++ b
  else a ++ "/" ++ b

/-- The component loop of `posixpath.normpath`: skip empty and `'.'`
components; a `'..'` is appended when at the start of a relative path or
after another `'..'`, pops the previous component otherwise (or is
dropped at the root of an absolute path). -/
def normComps (initialSlashes : Nat) (comps : List (List Char)) : List (List Char) :=
  comps.foldl (fun acc comp =>
    if comp = [] ∨ comp = ['.'] then acc
    else if comp ≠ ['.', '.'] ∨ (initialSlashes = 0 ∧ acc = [])
        ∨ acc.getLast? = some ['.', '.'] then acc ++ [comp]
    else acc.dropLast) []

/-- Render a component list with `'/'` separators (`sep.join`). -/
def joinComps : List (List Char) → List Char
  | [] => []
  | [c] => c
  | c :: cs => c ++ '/' :: joinComps cs

/-- Model of `posixpath.normpath`: empty path becomes `'.'`; one leading slash is
kept (two, in the special POSIX double-slash case); components are
collapsed by `normComps`. -/
def normPath (p : String) : String :=
  if p = "" then "." else
  let cs := p.toList
  let initialSlashes : Nat :=
    if strStartsWith p "/" then
      if strStartsWith p "//" ∧ ¬ strStartsWith p "///" then 2 else 1
    else 0
  let comps := normComps initialSlashes (pySplit '/' cs)
  let out := List.replicate initialSlashes '/' ++ joinComps comps
  if out = [] then "." else ⟨out⟩

/-- Model of `os.path.abspath` relative to a current working directory. -/
def absPath (cwd p : String) : String :=
  if isAbs p then normPath p else normPath (pathJoin cwd p)

/-- The guard of `serve_image_path` (server.py 167–168): compute
`safe_path = abspath(join(BASE_PATH, filepath))` and accept iff
`safe_path.startswith(abspath(BASE_PATH))`; rejection is `abort(404)`. -/
def servePathAccepts (cwd base filepath : String) : Bool :=
  let safePath := absPath cwd (pathJoin base filepath)
  strStartsWith safePath (absPath cwd base)

/-- The path actually served when the guard accepts. -/
def servedPath (cwd base filepath : String) : String :=
  absPath cwd (pathJoin base filepath)

/-- The property the specification requires of accepted paths: the
resolved path is the resolved root itself or lies strictly below it. -/
def isDescendantOrEqual (p root : String) : Prop :=
  p = root ∨ strStartsWith p (root ++ "/") = true

instance (p root : String) : Decidable (isDescendantOrEqual p root) := by
  unfold isDescendantOrEqual; infer_instance

/-! ### Derived definitions used by the analysis -/

/-- Reading of `hourStep` as a per-entry partial map: the record contributed by one
day-directory entry, if any. -/
def hourItem (h : HourEntry) : Option (String × Option String) :=
  if h.isDir then some (h.name, hourThumb h) else none

/-- The labels of a week mapping, in insertion order. -/
def wlabels (w : List (String × List DayRec)) : List String := w.map Prod.fst

/-- The day-record list stored under a label (empty when absent). -/
def bucketOf : List (String × List DayRec) → String → List DayRec
  | [], _ => []
  | b :: bs, l => if b.1 = l then b.2 else bucketOf bs l

/-- The day record contributed to the given week label by one directory
entry, if any (along the successful path). -/
def weekFilter (label : String) (e : String × Bool) : Option DayRec :=
  if e.2 then
    match toWeekRec e.1 with
    | .ok (some lr) => if lr.1 = label then some lr.2 else none
    | _ => none
  else none

/-- All day records a list of directory entries contributes to the given
week label, in processing order. -/
def weekRecs (items : List (String × Bool)) (label : String) : List DayRec :=
  items.filterMap (weekFilter label)

/-- The first member path of every week bucket, in bucket order. -/
def bucketHeads (w : List (String × List DayRec)) : List String :=
  w.filterMap (fun b => (b.2.map DayRec.path).head?)

instance : IsTotal String strLe := by
  constructor
  have key : ∀ x y : List Char, pyStrLe x y = true ∨ pyStrLe y x = true := by
    intro x
    induction x with
    | nil => intro y; left; rfl
    | cons c cs ih =>
      intro y
      cases y with
      | nil => right; rfl
      | cons d ds =>
        rcases Nat.lt_trichotomy c.toNat d.toNat with h | h | h
        · left; simp [pyStrLe, h]
        · rcases ih ds with h2 | h2
          · left; simp [pyStrLe, h, h2]
          · right; simp [pyStrLe, h, h2]
        · right; simp [pyStrLe, h]
  exact fun a b => key a.toList b.toList

instance : IsTrans String strLe := by
  constructor
  have key : ∀ x y z : List Char, pyStrLe x y = true → pyStrLe y z = true →
      pyStrLe x z = true := by
    intro x
    induction x with
    | nil => intro y z h1 h2; rfl
    | cons c cs ih =>
      intro y z h1 h2
      cases y with
      | nil => simp [pyStrLe] at h1
      | cons d ds =>
        cases z with
        | nil => simp [pyStrLe] at h2
        | cons e es =>
          simp only [pyStrLe] at h1 h2 ⊢
          rcases Nat.lt_trichotomy c.toNat d.toNat with h | h | h
          · rcases Nat.lt_trichotomy d.toNat e.toNat with g | g | g
            · simp [show c.toNat < e.toNat from by omega]
            · simp [show c.toNat < e.toNat from by omega]
            · simp [show ¬ d.toNat < e.toNat from by omega, g] at h2
          · rcases Nat.lt_trichotomy d.toNat e.toNat with g | g | g
            · simp [show c.toNat < e.toNat from by omega]
            · simp only [show ¬ c.toNat < d.toNat from by omega,
                show ¬ d.toNat < c.toNat from by omega, if_neg,
                ite_false, not_false_eq_true] at h1
              simp only [show ¬ d.toNat < e.toNat from by omega,
                show ¬ e.toNat < d.toNat from by omega, if_neg,
                ite_false, not_false_eq_true] at h2
              simp only [show ¬ c.toNat < e.toNat from by omega,
                show ¬ e.toNat < c.toNat from by omega, if_neg,
                ite_false, not_false_eq_true]
              exact ih ds es h1 h2
            · simp [show ¬ d.toNat < e.toNat from by omega, g] at h2
          · simp [show ¬ c.toNat < d.toNat from by omega, h] at h1
  exact fun a b c => key a.toList b.toList c.toList

instance : IsTotal (String × Bool) nameGe :=
  ⟨fun a b => total_of strLe b.1 a.1⟩

instance : IsTrans (String × Bool) nameGe :=
  ⟨fun _ _ _ h1 h2 => trans_of strLe h2 h1⟩

/-! ## Claims about the Hour Sort Key -/

theorem sort_key_of_firstTok_none (s : String)
    (h : pyInt (firstTok s) = none) : sort_key s = 99 := by
  unfold sort_key sortKeyTry
  unfold firstTok at h
  cases hp : pySplit '_' (pyLower s.toList) with
  | nil => simp [hp]
  | cons a as =>
    rw [hp] at h
    simp only [List.headD_cons] at h
    simp [hp, h]

theorem sort_key_of_firstTok_some (s : String) (n : Int)
    (h : pyInt (firstTok s) = some n) :
    sort_key s =
      (let parts := pySplit '_' (pyLower s.toList)
       let ampm := if parts.length > 1 then parts.getD 1 [] else ['a', 'm']
       let v := if ampm = ['p', 'm'] ∧ n ≠ 12 then n + 12 else n
       if ampm = ['a', 'm'] ∧ v = 12 then 0 else v) := by
  unfold sort_key sortKeyTry
  unfold firstTok at h
  cases hp : pySplit '_' (pyLower s.toList) with
  | nil =>
    rw [hp] at h
    simp only [List.headD_nil] at h
    have hnone : pyInt ([] : List Char) = none := by decide
    rw [hnone] at h
    cases h
  | cons a as =>
    rw [hp] at h
    simp only [List.headD_cons] at h
    simp [hp, h]

/-- C4: REFUTED as stated.  The claim says a missing token or an
out-of-range hour also yields the sentinel 99; in the code a missing
second token defaults to `"am"` and an out-of-range first number is
converted arithmetically, so `"7"` maps to 7, `"13_pm"` to 25 and
`"-3_am"` to -3 (the last even sorting *before* all valid hours). -/
theorem c4_sentinel_counterexample :
    sort_key "7" = 7 ∧ sort_key "13_pm" = 25 ∧ sort_key "-3_am" = -3 ∧
      (7 : Int) ≠ 99 := by
  decide

/-- C4 (amended): only a first token that `int(...)` rejects yields the
sentinel 99; a missing second token defaults to `"am"` and out-of-range
hour numbers are converted arithmetically instead of being mapped to the
sentinel. -/
theorem c4_sentinel_amended :
    (∀ s : String, pyInt (firstTok s) = none → sort_key s = 99) ∧
      sort_key "7" = 7 ∧ sort_key "13_pm" = 25 ∧ sort_key "-3_am" = -3 := by
  refine ⟨fun s h => sort_key_of_firstTok_none s h, by decide, by decide, by decide⟩

/-- Witness for C4 (amended): the parse-failure branch at the concrete
name `".DS_Store"`. -/
theorem c4_sentinel_amended_witness :
    sort_key ".DS_Store" = 99 :=
  c4_sentinel_amended.1 ".DS_Store" (by decide)

/-- C6: CONFIRMED.  For every `<N>_<am|pm>` name with `1 ≤ N ≤ 12`, in
lower or upper case, `sort_key` returns the 12-hour-clock conversion:
`12_am ↦ 0`, `12_pm ↦ 12`, `N_am ↦ N` and `N_pm ↦ N + 12` otherwise —
always a value in `[0, 23]`. -/
theorem c6_valid_hour_conversion (n : Nat) (h1 : 1 ≤ n) (h2 : n ≤ 12) :
    sort_key (toString n ++ "_am") = (if n = 12 then 0 else (n : Int)) ∧
    sort_key (toString n ++ "_pm") = (if n = 12 then 12 else (n : Int) + 12) ∧
    sort_key (toString n ++ "_AM") = (if n = 12 then 0 else (n : Int)) ∧
    sort_key (toString n ++ "_PM") = (if n = 12 then 12 else (n : Int) + 12) ∧
    0 ≤ sort_key (toString n ++ "_am") ∧ sort_key (toString n ++ "_am") ≤ 23 ∧
    0 ≤ sort_key (toString n ++ "_pm") ∧ sort_key (toString n ++ "_pm") ≤ 23 := by
  interval_cases n <;> decide

/-- Witness for C6 at `N = 7` and `N = 12`: `"7_am" ↦ 7`, `"7_pm" ↦ 19`,
`"12_am" ↦ 0`, `"12_pm" ↦ 12`. -/
theorem c6_valid_hour_conversion_witness :
    sort_key "7_am" = 7 ∧ sort_key "7_pm" = 19 ∧
      sort_key "12_am" = 0 ∧ sort_key "12_pm" = 12 := by
  have h7 := c6_valid_hour_conversion 7 (by decide) (by decide)
  have h12 := c6_valid_hour_conversion 12 (by decide) (by decide)
  refine ⟨?_, ?_, ?_, ?_⟩
  · simpa using h7.1
  · simpa using h7.2.1
  · simpa using h12.1
  · simpa using h12.2.1

/-- C10: CONFIRMED.  `sort_key` is total: on every input string it
returns either the value computed by the `try` body (when no modelled
failure occurs) or the sentinel 99 (when the body fails), so no
exception ever escapes. -/
theorem c10_sort_key_total (s : String) :
    (sortKeyTry s = none ∧ sort_key s = 99) ∨
      ∃ n : Int, sortKeyTry s = some n ∧ sort_key s = n := by
  cases h : sortKeyTry s with
  | none => exact Or.inl ⟨rfl, by simp [sort_key, h]⟩
  | some n => exact Or.inr ⟨n, rfl, by simp [sort_key, h]⟩

/-! ## Claims about Image Pagination -/

theorem images_on_page_length (l : List String) (page : Int) :
    (images_on_page l page).length ≤ IMAGES_PER_PAGE := by
  simp only [images_on_page, pySlice, List.length_drop, List.length_take,
    pySliceIdx, IMAGES_PER_PAGE]
  split_ifs <;> omega

theorem images_on_page_pos (l : List String) (page : Int) (h : 1 ≤ page) :
    images_on_page l page =
      (l.drop (((page - 1) * (IMAGES_PER_PAGE : Int)).toNat)).take IMAGES_PER_PAGE := by
  have h0 : ¬ ((page - 1) * (IMAGES_PER_PAGE : Int) < 0) := by
    simp only [IMAGES_PER_PAGE]; omega
  have h1 : ¬ ((page - 1) * (IMAGES_PER_PAGE : Int) + IMAGES_PER_PAGE < 0) := by
    simp only [IMAGES_PER_PAGE] at h0 ⊢; omega
  simp only [images_on_page, pySlice, pySliceIdx, h0, h1, if_neg, ite_false]
  set a := ((page - 1) * (IMAGES_PER_PAGE : Int)).toNat with ha
  have hae : ((page - 1) * (IMAGES_PER_PAGE : Int) + IMAGES_PER_PAGE).toNat
      = a + IMAGES_PER_PAGE := by
    simp only [IMAGES_PER_PAGE, ha]; omega
  rw [hae]
  rcases le_or_lt l.length a with hle | hlt
  · have e1 : min a l.length = l.length := by omega
    have e2 : l.drop a = [] := List.drop_eq_nil_of_le hle
    rw [e1, e2, List.take_nil]
    have : (l.take (min (a + IMAGES_PER_PAGE) l.length)).length ≤ l.length := by
      simp only [List.length_take]; omega
    exact List.drop_eq_nil_of_le this
  · have e1 : min a l.length = a := by omega
    rw [e1, List.drop_take]
    have hlen : (l.drop a).length = l.length - a := List.length_drop a l
    rcases le_or_lt (l.length - a) IMAGES_PER_PAGE with hc | hc
    · have e2 : min (a + IMAGES_PER_PAGE) l.length - a = l.length - a := by omega
      rw [e2, List.take_of_length_le (by omega), List.take_of_length_le (by omega)]
    · have e2 : min (a + IMAGES_PER_PAGE) l.length - a = IMAGES_PER_PAGE := by omega
      rw [e2]

/-- C2: REFUTED as stated.  The page size is 12 (`IMAGES_PER_PAGE = 12`
at server.py 126), not 25: on a 13-image list, page 1 holds 12 images,
whereas boundaries computed with size 25 would put all 13 on page 1. -/
theorem c2_page_size_counterexample :
    images_on_page ((List.range 13).map toString) 1 ≠
        pySlice ((List.range 13).map toString) 0 25 ∧
      (images_on_page ((List.range 13).map toString) 1).length = 12 := by
  constructor
  · decide
  · decide

/-- C2 (amended): the hour view slices the sorted image list into pages
of fixed maximum size 12: every returned page holds at most
`IMAGES_PER_PAGE = 12` filenames, and for every requested page `≥ 1` the
slice boundaries are `(page-1)*12` and `(page-1)*12 + 12`. -/
theorem c2_page_size_amended (l : List String) (page : Int) :
    IMAGES_PER_PAGE = 12 ∧
      (images_on_page l page).length ≤ IMAGES_PER_PAGE ∧
      (1 ≤ page → images_on_page l page =
        (l.drop (((page - 1) * (IMAGES_PER_PAGE : Int)).toNat)).take IMAGES_PER_PAGE) :=
  ⟨rfl, images_on_page_length l page, images_on_page_pos l page⟩

/-- Witness for C2 (amended): page 2 of a 13-image list is exactly the
13th image. -/
theorem c2_page_size_amended_witness :
    images_on_page ((List.range 13).map toString) 2 =
      ((List.range 13).map toString).drop 12 := by
  have h := (c2_page_size_amended ((List.range 13).map toString) 2).2.2 (by decide)
  rw [h]
  decide

/-- C5: REFUTED as stated.  A page number beyond the total page count
does return an empty slice, but a *negative* page number flows into
Python's negative-index slicing: on a 13-image list, `page = -1` yields
slice `[-24:-12]`, which resolves to `[0:1]` and returns one image. -/
theorem c5_out_of_range_counterexample :
    images_on_page ((List.range 13).map toString) (-1) = ["0"] ∧
      ((-1 : Int) < 1 ∧
        (total_pages ((List.range 13).map toString).length IMAGES_PER_PAGE : Int)
          = 2) := by
  refine ⟨by decide, by decide, by decide⟩

/-- C5 (amended): a page number greater than the total page count yields
an empty slice, and so does page 0; but page numbers below 0 are
resolved by Python's negative slice indexing and can yield a non-empty
slice. -/
theorem c5_out_of_range_amended (l : List String) (page : Int) :
    ((total_pages l.length IMAGES_PER_PAGE : Int) < page →
        images_on_page l page = []) ∧
      (page = 0 → images_on_page l page = []) := by
  constructor
  · intro h
    apply List.eq_nil_of_length_eq_zero
    simp only [total_pages, IMAGES_PER_PAGE] at h
    simp only [images_on_page, pySlice, List.length_drop, List.length_take,
      pySliceIdx, IMAGES_PER_PAGE]
    split_ifs <;> omega
  · intro h
    subst h
    apply List.eq_nil_of_length_eq_zero
    simp only [images_on_page, pySlice, List.length_drop, List.length_take,
      pySliceIdx, IMAGES_PER_PAGE]
    split_ifs <;> omega

/-- Witness for C5 (amended): page 3 of a 13-image list (total pages 2)
is empty, and so is page 0. -/
theorem c5_out_of_range_amended_witness :
    images_on_page ((List.range 13).map toString) 3 = [] ∧
      images_on_page ((List.range 13).map toString) 0 = [] :=
  ⟨(c5_out_of_range_amended ((List.range 13).map toString) 3).1 (by decide),
   (c5_out_of_range_amended ((List.range 13).map toString) 0).2 rfl⟩

/-- C7: CONFIRMED.  `(total + per - 1) // per` is exactly the ceiling of
`total / per` for every positive page size, the empty list has 0 total
pages, and page 1 of the empty list is the empty slice. -/
theorem c7_total_pages_ceiling (L P : Nat) (hP : 0 < P) :
    (total_pages L P : Int) = ⌈(L : ℚ) / (P : ℚ)⌉ ∧
      total_pages 0 P = 0 ∧ images_on_page [] 1 = [] := by
  refine ⟨?_, ?_, by decide⟩
  · have e := Nat.div_add_mod (L + P - 1) P
    have hr : (L + P - 1) % P < P := Nat.mod_lt _ hP
    obtain ⟨M, hM⟩ : ∃ M, P * ((L + P - 1) / P) = M := ⟨_, rfl⟩
    rw [hM] at e
    have h1 : L ≤ M := by omega
    have h2 : M < L + P := by omega
    have hPQ : (0 : ℚ) < (P : ℚ) := by exact_mod_cast hP
    have htP : (total_pages L P : ℚ) * (P : ℚ) = (M : ℚ) := by
      have h : total_pages L P * P = M := by
        simpa [total_pages, Nat.mul_comm] using hM
      exact_mod_cast congrArg (fun n : ℕ => (n : ℚ)) h
    have h1' : (L : ℚ) ≤ (M : ℚ) := by exact_mod_cast h1
    have h2' : (M : ℚ) < (L : ℚ) + (P : ℚ) := by exact_mod_cast h2
    rw [eq_comm, Int.ceil_eq_iff]
    constructor
    · rw [lt_div_iff₀ hPQ]
      push_cast
      nlinarith [htP, h2', hPQ]
    · rw [div_le_iff₀ hPQ]
      push_cast
      nlinarith [htP, h1']
  · have : P - 1 < P := by omega
    simp [total_pages, Nat.div_eq_of_lt this]

/-- Witness for C7 at `L = 13`, `P = 12`: two pages, and
`⌈13/12⌉ = 2`. -/
theorem c7_total_pages_ceiling_witness :
    (total_pages 13 12 : Int) = ⌈(13 : ℚ) / (12 : ℚ)⌉ ∧
      total_pages 0 12 = 0 ∧ images_on_page [] 1 = [] :=
  c7_total_pages_ceiling 13 12 (by norm_num)

/-! ## Claim about the Path Safety Guard -/

/-- C3: the guard is a plain string-prefix test, not a descendant test.
The two traversal strings named by the specification are indeed rejected
and a legitimate relative path is accepted, but a sibling directory
whose name extends the root's name slips through: with the root
`imagenes` resolved under cwd `/app`, the request
`../imagenes_evil/x.jpg` resolves to `/app/imagenes_evil/x.jpg`, which
starts with the string `/app/imagenes` and is therefore accepted even
though it is not a descendant of (nor equal to) the root. -/
theorem c3_path_guard_prefix_bug :
    servePathAccepts "/app" "imagenes" "../imagenes_evil/x.jpg" = true ∧
      servedPath "/app" "imagenes" "../imagenes_evil/x.jpg"
        = "/app/imagenes_evil/x.jpg" ∧
      ¬ isDescendantOrEqual
          (servedPath "/app" "imagenes" "../imagenes_evil/x.jpg")
          (absPath "/app" "imagenes") ∧
      servePathAccepts "/app" "imagenes" "../../etc/passwd" = false ∧
      servePathAccepts "/app" "imagenes" "/etc/passwd" = false ∧
      servePathAccepts "/app" "imagenes" "2024-01-01/7_am/x.jpg" = true ∧
      isDescendantOrEqual
        (servedPath "/app" "imagenes" "2024-01-01/7_am/x.jpg")
        (absPath "/app" "imagenes") := by
  decide

/-! ## Claims about the Hour Aggregator -/

theorem pyStrLe_refl (a : List Char) : pyStrLe a a = true := by
  induction a with
  | nil => rfl
  | cons c cs ih => simp [pyStrLe, ih]

theorem strLe_refl (s : String) : strLe s s := pyStrLe_refl s.toList

theorem hour_foldl_eq (l : List HourEntry) (acc : List (String × Option String)) :
    l.foldl hourStep acc = acc ++ l.filterMap hourItem := by
  induction l generalizing acc with
  | nil => simp
  | cons h t ih =>
    simp only [List.foldl_cons, List.filterMap_cons]
    cases hd : h.isDir
    · simp only [hourStep, hourItem, hd, Bool.false_eq_true, if_false, ite_false]
      exact ih acc
    · simp only [hourStep, hourItem, hd, if_true, ite_true]
      rw [ih (acc ++ [(h.name, hourThumb h)]), List.append_assoc]
      rfl

theorem get_hour_data_eq (es : List HourEntry) :
    get_hour_data true es
      = (List.insertionSort hourKeyLe es).filterMap hourItem := by
  simp [get_hour_data, hour_foldl_eq]

theorem filterMap_hourItem_fst (l : List HourEntry) :
    (l.filterMap hourItem).map Prod.fst
      = (l.filter (·.isDir)).map HourEntry.name := by
  induction l with
  | nil => rfl
  | cons h t ih =>
    cases hd : h.isDir <;>
      simp [hourItem, List.filter_cons, List.filterMap_cons, hd, ih]

/-- C1: REFUTED as stated.  `get_hour_data` never consults a `normal`
subdirectory: a day with one hour directory that holds a single plain
file `a.jpg` and no `normal` subdirectory at all is still listed, with
that file as thumbnail, whereas the claim demands the hour be omitted
(as the spec-faithful `getHourDataSpec` does). -/
theorem c1_normal_subdir_counterexample :
    get_hour_data true [⟨"7_am", true, [⟨"a.jpg", false, []⟩]⟩]
        = [("7_am", some "a.jpg")] ∧
      getHourDataSpec [⟨"7_am", true, [⟨"a.jpg", false, []⟩]⟩] = [] ∧
      ∀ e ∈ [(⟨"7_am", true, [⟨"a.jpg", false, []⟩]⟩ : HourEntry)],
        ¬ ∃ c ∈ e.children, c.name = "normal" ∧ c.isDir = true := by
  decide

/-- C1 (amended): the Hour Aggregator's output contains exactly the
entries of the day directory that are themselves directories (the
`normal` subdirectory plays no role), and for each included hour the
thumbnail is the lexicographically least name among the entries of the
hour directory itself, or `None` if that directory is empty. -/
theorem c1_hour_aggregator_amended (es : List HourEntry) :
    ((get_hour_data true es).map Prod.fst).Perm
        ((es.filter (·.isDir)).map HourEntry.name) ∧
      ∀ p ∈ get_hour_data true es, ∃ e, e ∈ es ∧ e.isDir = true ∧
        p.1 = e.name ∧ (p.2 = none ↔ e.children = []) ∧
        ∀ fn, p.2 = some fn → fn ∈ e.children.map SubEntry.name ∧
          ∀ gn ∈ e.children.map SubEntry.name, strLe fn gn := by
  constructor
  · rw [get_hour_data_eq, filterMap_hourItem_fst]
    exact ((List.perm_insertionSort hourKeyLe es).filter _).map _
  · intro p hp
    rw [get_hour_data_eq] at hp
    obtain ⟨e, he, hei⟩ := List.mem_filterMap.mp hp
    have heDir : e.isDir = true := by
      by_contra hd
      simp [hourItem, hd] at hei
    have hpe : p = (e.name, hourThumb e) := by
      simp only [hourItem, heDir, ite_true, Option.some.injEq] at hei
      exact hei.symm
    have hemem : e ∈ es := (List.perm_insertionSort hourKeyLe es).mem_iff.mp he
    have hperm : List.insertionSort strLe (e.children.map SubEntry.name)
        |>.Perm (e.children.map SubEntry.name) := List.perm_insertionSort _ _
    refine ⟨e, hemem, heDir, by rw [hpe], ?_, ?_⟩
    · rw [hpe]
      simp only [hourThumb, List.head?_eq_none_iff]
      constructor
      · intro hn
        have h0 : List.insertionSort strLe (e.children.map SubEntry.name) = [] := hn
        rw [h0] at hperm
        exact List.map_eq_nil_iff.mp hperm.symm.eq_nil
      · intro hc
        simp [hc, List.insertionSort]
    · intro fn hfn
      rw [hpe] at hfn
      simp only [hourThumb] at hfn
      have hsort := List.sorted_insertionSort strLe (e.children.map SubEntry.name)
      cases hLc : List.insertionSort strLe (e.children.map SubEntry.name) with
      | nil => rw [hLc] at hfn; cases hfn
      | cons a t =>
        rw [hLc] at hfn
        have hfa : fn = a := by
          simpa using hfn.symm
        rw [hLc] at hsort
        constructor
        · exact hperm.mem_iff.mp (by rw [hLc, hfa]; exact List.mem_cons_self a t)
        · intro gn hgn
          have hgL : gn ∈ a :: t := by
            rw [← hLc]; exact hperm.mem_iff.mpr hgn
          rcases List.mem_cons.mp hgL with hga | hgt
          · rw [hfa, hga]; exact strLe_refl a
          · rw [hfa]; exact List.rel_of_sorted_cons hsort gn hgt

/-- Witness for C1 (amended) on a concrete day directory with one hour
holding two plain files: the hour is listed and its thumbnail `a.jpg` is
the least entry name. -/
theorem c1_hour_aggregator_amended_witness :
    ((get_hour_data true
          [⟨"7_am", true, [⟨"b.jpg", false, []⟩, ⟨"a.jpg", false, []⟩]⟩]).map
        Prod.fst).Perm
        (([(⟨"7_am", true, [⟨"b.jpg", false, []⟩, ⟨"a.jpg", false, []⟩]⟩ :
            HourEntry)].filter (·.isDir)).map HourEntry.name) ∧
      ∃ e, e ∈ [(⟨"7_am", true, [⟨"b.jpg", false, []⟩, ⟨"a.jpg", false, []⟩]⟩ :
          HourEntry)] ∧ e.isDir = true ∧
        ("7_am", (some "a.jpg" : Option String)).1 = e.name ∧
        (("7_am", (some "a.jpg" : Option String)).2 = none ↔ e.children = []) ∧
        ∀ fn, ("7_am", (some "a.jpg" : Option String)).2 = some fn →
          fn ∈ e.children.map SubEntry.name ∧
          ∀ gn ∈ e.children.map SubEntry.name, strLe fn gn :=
  ⟨(c1_hour_aggregator_amended _).1,
   (c1_hour_aggregator_amended _).2 ("7_am", some "a.jpg") (by decide)⟩

/-! ## Claims about the Week Aggregator -/

theorem toWeekRec_path {nm : String} {lr : String × DayRec}
    (h : toWeekRec nm = .ok (some lr)) : lr.2.path = nm := by
  unfold toWeekRec at h
  cases hp : parseYMD nm with
  | none =>
    rw [hp] at h
    simp at h
  | some ymd =>
    rw [hp] at h
    simp only [] at h
    cases hl : week_label ymd.1 ymd.2.1 ymd.2.2 with
    | none =>
      rw [hl] at h
      simp at h
    | some label =>
      rw [hl] at h
      simp only [Except.ok.injEq, Option.some.injEq] at h
      rw [← h]

theorem stepWeek_ok_of_good (w : List (String × List DayRec))
    (e : String × Bool) (h : badEntry e = false) :
    stepWeek w e = .ok (stepWeekOk w e) := by
  unfold stepWeek stepWeekOk
  unfold badEntry at h
  cases he : e.2
  · simp
  · rw [he] at h
    simp only [Bool.true_and] at h
    cases hw : toWeekRec e.1 with
    | error u =>
      rw [hw] at h
      simp at h
    | ok o =>
      cases o <;> simp

theorem stepWeek_error_of_bad (w : List (String × List DayRec))
    (e : String × Bool) (h : badEntry e = true) :
    stepWeek w e = .error () := by
  unfold stepWeek
  unfold badEntry at h
  cases he : e.2
  · rw [he] at h
    simp at h
  · rw [he] at h
    simp only [Bool.true_and] at h
    cases hw : toWeekRec e.1 with
    | error u =>
      cases u
      rfl
    | ok o =>
      rw [hw] at h
      simp at h

theorem foldWeeks_nil (acc : Except Unit (List (String × List DayRec))) :
    foldWeeks [] acc = acc := rfl

theorem foldWeeks_cons (e : String × Bool) (t : List (String × Bool))
    (acc : Except Unit (List (String × List DayRec))) :
    foldWeeks (e :: t) acc
      = foldWeeks t (acc.bind (fun w => stepWeek w e)) := rfl

theorem foldWeeks_error (items : List (String × Bool)) :
    ∀ u, foldWeeks items (.error u) = .error u := by
  induction items with
  | nil => intro u; rfl
  | cons e t ih =>
    intro u
    rw [foldWeeks_cons,
      show ((Except.error u).bind (fun w => stepWeek w e)
        : Except Unit (List (String × List DayRec))) = .error u from rfl]
    exact ih u

theorem foldWeeks_ok_of_good (items : List (String × Bool)) :
    ∀ w, (∀ e ∈ items, badEntry e = false) →
      foldWeeks items (.ok w) = .ok (items.foldl stepWeekOk w) := by
  induction items with
  | nil => intro w _; rfl
  | cons e t ih =>
    intro w hg
    rw [foldWeeks_cons, List.foldl_cons,
      show (Except.ok w).bind (fun w => stepWeek w e) = stepWeek w e from rfl,
      stepWeek_ok_of_good w e (hg e (List.mem_cons_self e t))]
    exact ih (stepWeekOk w e) (fun x hx => hg x (List.mem_cons_of_mem _ hx))

theorem foldWeeks_error_of_bad (items : List (String × Bool)) :
    ∀ w, (∃ e ∈ items, badEntry e = true) →
      foldWeeks items (.ok w) = .error () := by
  induction items with
  | nil =>
    intro w h
    obtain ⟨e, he, _⟩ := h
    cases he
  | cons e t ih =>
    intro w h
    rw [foldWeeks_cons,
      show (Except.ok w).bind (fun w => stepWeek w e) = stepWeek w e from rfl]
    by_cases hbe : badEntry e = true
    · rw [stepWeek_error_of_bad w e hbe]
      exact foldWeeks_error t ()
    · have hbe' : badEntry e = false := by
        cases hb2 : badEntry e
        · rfl
        · exact absurd hb2 hbe
      rw [stepWeek_ok_of_good w e hbe']
      obtain ⟨x, hx, hxb⟩ := h
      rcases List.mem_cons.mp hx with hxe | hx'
      · rw [hxe] at hxb
        exact absurd hxb hbe
      · exact ih (stepWeekOk w e) ⟨x, hx', hxb⟩

theorem foldWeeks_ok_inv (items : List (String × Bool))
    (w W : List (String × List DayRec))
    (h : foldWeeks items (.ok w) = .ok W) :
    (∀ e ∈ items, badEntry e = false) ∧ W = items.foldl stepWeekOk w := by
  by_cases hb : ∃ e ∈ items, badEntry e = true
  · rw [foldWeeks_error_of_bad items w hb] at h
    cases h
  · have hg : ∀ e ∈ items, badEntry e = false := by
      intro e he
      cases hbe : badEntry e
      · rfl
      · exact absurd ⟨e, he, hbe⟩ hb
    refine ⟨hg, ?_⟩
    rw [foldWeeks_ok_of_good items w hg] at h
    injection h with h
    exact h.symm

theorem badEntry_iff (e : String × Bool) :
    badEntry e = true ↔ e.2 = true ∧ ∃ ymd, parseYMD e.1 = some ymd ∧
      week_label ymd.1 ymd.2.1 ymd.2.2 = none := by
  unfold badEntry toWeekRec
  cases he : e.2
  · simp
  · simp only [Bool.true_and, true_and]
    cases hp : parseYMD e.1 with
    | none => simp
    | some ymd0 =>
      simp only []
      cases hl : week_label ymd0.1 ymd0.2.1 ymd0.2.2 with
      | none =>
        simp only []
        constructor
        · intro _
          exact ⟨ymd0, rfl, hl⟩
        · intro _
          trivial
      | some label =>
        simp only []
        constructor
        · intro hx
          exact absurd hx (by simp)
        · rintro ⟨ymd1, hy, hw⟩
          injection hy with hy
          rw [← hy] at hw
          rw [hl] at hw
          exact Option.noConfusion hw

/-- C9: REFUTED as stated.  The Week Aggregator can fail: the folder
name `9999-12-28` parses, but its week's Sunday lies past
`date.max = 9999-12-31`, so `monday + timedelta(days=6)`
(server.py 186) raises `OverflowError`, which `except ValueError`
(server.py 190) does not catch — the aggregation aborts with an
uncaught exception instead of returning a mapping.  The previous week
(e.g. the date `9999-12-26`) is still labelled normally. -/
theorem c9_overflow_counterexample :
    group_by_weeks true [("9999-12-28", true)] = .error () ∧
      parseYMD "9999-12-28" = some (9999, 12, 28) ∧
      week_label 9999 12 28 = none ∧
      week_label 9999 12 26 = some "20/12/9999 - 26/12/9999" := by
  refine ⟨by rfl, by decide, by rfl, by rfl⟩

/-- C9 (amended): when the root directory does not exist the aggregator
returns the empty mapping; entries that are not directories or whose
names fail to parse are skipped silently and never affect the result;
and the aggregation fails — with an uncaught `OverflowError` — exactly
when some directory entry parses to a date whose week-label arithmetic
overflows `date.max` (the dates 9999-12-27 through 9999-12-31). -/
theorem c9_week_aggregator_amended :
    (∀ entries : List (String × Bool), group_by_weeks false entries = .ok []) ∧
    (∀ (items : List (String × Bool))
        (acc : Except Unit (List (String × List DayRec))),
      foldWeeks items acc
        = foldWeeks (items.filter (fun e => e.2 && (parseYMD e.1).isSome)) acc) ∧
    (∀ entries : List (String × Bool),
      group_by_weeks true entries = .error () ↔
        ∃ e ∈ entries, e.2 = true ∧ ∃ ymd, parseYMD e.1 = some ymd ∧
          week_label ymd.1 ymd.2.1 ymd.2.2 = none) := by
  refine ⟨fun entries => rfl, ?_, ?_⟩
  · intro items
    induction items with
    | nil => intro acc; rfl
    | cons e t ih =>
      intro acc
      by_cases hg : (e.2 && (parseYMD e.1).isSome) = true
      · simp only [List.filter_cons, hg, ite_true]
        rw [foldWeeks_cons, foldWeeks_cons]
        exact ih _
      · have hg' : (e.2 && (parseYMD e.1).isSome) = false := by
          cases hb : (e.2 && (parseYMD e.1).isSome)
          · rfl
          · exact absurd hb hg
        simp only [List.filter_cons, hg', Bool.false_eq_true, ite_false]
        rw [foldWeeks_cons]
        have hskip : acc.bind (fun w => stepWeek w e) = acc := by
          cases acc with
          | error u => rfl
          | ok w =>
            have hstep : stepWeek w e = .ok w := by
              unfold stepWeek
              cases he : e.2
              · simp
              · rw [he] at hg'
                simp only [Bool.true_and] at hg'
                unfold toWeekRec
                cases hp : parseYMD e.1 with
                | none => simp
                | some ymd => rw [hp] at hg'; cases hg'
            rw [show (Except.ok w).bind (fun w => stepWeek w e)
                = stepWeek w e from rfl, hstep]
        rw [hskip]
        exact ih acc
  · intro entries
    constructor
    · intro herr
      by_cases hb : ∃ e ∈ List.insertionSort nameGe entries, badEntry e = true
      · obtain ⟨e, he, hbe⟩ := hb
        obtain ⟨h2, ymd, hp, hl⟩ := (badEntry_iff e).mp hbe
        exact ⟨e, (List.perm_insertionSort nameGe entries).mem_iff.mp he,
          h2, ymd, hp, hl⟩
      · have hg : ∀ e ∈ List.insertionSort nameGe entries,
            badEntry e = false := by
          intro e he
          cases hbe : badEntry e
          · rfl
          · exact absurd ⟨e, he, hbe⟩ hb
        have hok := foldWeeks_ok_of_good (List.insertionSort nameGe entries) [] hg
        have herr' : foldWeeks (List.insertionSort nameGe entries)
            (.ok []) = .error () := herr
        rw [hok] at herr'
        cases herr'
    · rintro ⟨e, he, h2, ymd, hp, hl⟩
      have hbe : badEntry e = true := (badEntry_iff e).mpr ⟨h2, ymd, hp, hl⟩
      show foldWeeks (List.insertionSort nameGe entries) (.ok []) = .error ()
      exact foldWeeks_error_of_bad _ []
        ⟨e, (List.perm_insertionSort nameGe entries).mem_iff.mpr he, hbe⟩

/-- Witness for C9 (amended): a listing holding a skippable junk name
and the overflowing day `9999-12-28` makes the aggregation fail. -/
theorem c9_week_aggregator_amended_witness :
    group_by_weeks true [("junk", true), ("9999-12-28", true)] = .error () :=
  (c9_week_aggregator_amended.2.2 [("junk", true), ("9999-12-28", true)]).mpr
    ⟨("9999-12-28", true), by decide, rfl, (9999, 12, 28), by decide, by rfl⟩

theorem bucketOf_nil (l : String) : bucketOf [] l = [] := rfl

theorem bucketOf_cons (b : String × List DayRec)
    (bs : List (String × List DayRec)) (l : String) :
    bucketOf (b :: bs) l = if b.1 = l then b.2 else bucketOf bs l := rfl

theorem wlabels_insertRec (w : List (String × List DayRec)) (l : String)
    (r : DayRec) :
    wlabels (insertRec w l r)
      = if (wlabels w).contains l then wlabels w else wlabels w ++ [l] := by
  unfold insertRec wlabels
  cases hc : (w.map Prod.fst).contains l with
  | true =>
    simp only [hc, ite_true]
    rw [List.map_map]
    apply List.map_congr_left
    intro b _
    by_cases hb : b.1 = l <;> simp [hb]
  | false => simp [hc]

theorem bucketOf_map_update_ne (bs : List (String × List DayRec)) (l : String)
    (r : DayRec) (l' : String) (h : l' ≠ l) :
    bucketOf (bs.map (fun b => if b.1 = l then (b.1, b.2 ++ [r]) else b)) l'
      = bucketOf bs l' := by
  induction bs with
  | nil => rfl
  | cons b bs ih =>
    rw [List.map_cons]
    by_cases hb : b.1 = l
    · have hne : ¬ b.1 = l' := by rw [hb]; exact fun hh => h hh.symm
      rw [if_pos hb, bucketOf_cons, bucketOf_cons, if_neg hne, if_neg hne, ih]
    · rw [if_neg hb, bucketOf_cons, bucketOf_cons]
      by_cases hbl : b.1 = l'
      · rw [if_pos hbl, if_pos hbl]
      · rw [if_neg hbl, if_neg hbl, ih]

theorem bucketOf_map_update_eq (w : List (String × List DayRec)) (l : String)
    (r : DayRec) (hc : (wlabels w).contains l = true) :
    bucketOf (w.map (fun b => if b.1 = l then (b.1, b.2 ++ [r]) else b)) l
      = bucketOf w l ++ [r] := by
  induction w with
  | nil => simp [wlabels] at hc
  | cons b bs ih =>
    rw [List.map_cons]
    by_cases hb : b.1 = l
    · simp [hb, bucketOf_cons]
    · have hcs : (wlabels bs).contains l = true := by
        simp only [wlabels, List.map_cons, List.contains_cons,
          Bool.or_eq_true] at hc
        rcases hc with hc | hc
        · exact absurd (eq_of_beq hc).symm hb
        · exact hc
      rw [if_neg hb, bucketOf_cons, bucketOf_cons, if_neg hb, if_neg hb,
        ih hcs]

theorem bucketOf_append_new (w : List (String × List DayRec)) (l : String)
    (r : DayRec) (l' : String) (hc : (wlabels w).contains l = false) :
    bucketOf (w ++ [(l, [r])]) l'
      = if l' = l then bucketOf w l' ++ [r] else bucketOf w l' := by
  induction w with
  | nil =>
    by_cases h : l' = l
    · subst h
      simp [bucketOf_cons, bucketOf_nil]
    · have h' : ¬ l = l' := fun hh => h hh.symm
      simp [bucketOf_cons, bucketOf_nil, h, h']
  | cons b bs ih =>
    have hbl : (l == b.1) = false ∧ (wlabels bs).contains l = false := by
      simpa only [wlabels, List.map_cons, List.contains_cons,
        Bool.or_eq_false_iff] using hc
    rw [List.cons_append, bucketOf_cons, bucketOf_cons]
    by_cases hb : b.1 = l'
    · have h : ¬ l' = l := by
        intro hh
        have hbl1 := hbl.1
        rw [show b.1 = l from hb.trans hh] at hbl1
        simp at hbl1
      rw [if_pos hb, if_pos hb, if_neg h]
    · rw [if_neg hb, if_neg hb, ih hbl.2]

theorem bucketOf_insertRec (w : List (String × List DayRec)) (l : String)
    (r : DayRec) (l' : String) :
    bucketOf (insertRec w l r) l'
      = if l' = l then bucketOf w l' ++ [r] else bucketOf w l' := by
  unfold insertRec
  cases hc : (w.map Prod.fst).contains l with
  | true =>
    simp only [hc, ite_true]
    by_cases hll : l' = l
    · rw [if_pos hll, hll]
      exact bucketOf_map_update_eq w l r hc
    · rw [if_neg hll]
      exact bucketOf_map_update_ne w l r l' hll
  | false =>
    simp only [hc, Bool.false_eq_true, ite_false]
    exact bucketOf_append_new w l r l' hc

/-- Case analysis on one successful loop iteration: either the entry is
skipped (or would have raised) and contributes nothing, or it parses
with an in-range week and the iteration is an `insertRec`. -/
theorem stepWeekOk_eq (w : List (String × List DayRec)) (e : String × Bool) :
    (stepWeekOk w e = w ∧ ∀ l, weekFilter l e = none) ∨
      ∃ lr, toWeekRec e.1 = .ok (some lr) ∧ e.2 = true ∧
        stepWeekOk w e = insertRec w lr.1 lr.2 ∧
        ∀ l, weekFilter l e = if lr.1 = l then some lr.2 else none := by
  unfold stepWeekOk weekFilter
  cases he : e.2
  · exact Or.inl ⟨by simp, fun l => by simp⟩
  · cases hw : toWeekRec e.1 with
    | error u => exact Or.inl ⟨by simp [hw], fun l => by simp [hw]⟩
    | ok o =>
      cases o with
      | none => exact Or.inl ⟨by simp [hw], fun l => by simp [hw]⟩
      | some lr =>
        exact Or.inr ⟨lr, rfl, rfl, by simp, fun l => by simp⟩

theorem wlabels_stepWeekOk_nodup (w : List (String × List DayRec))
    (e : String × Bool) (hnd : (wlabels w).Nodup) :
    (wlabels (stepWeekOk w e)).Nodup := by
  rcases stepWeekOk_eq w e with ⟨hse, _⟩ | ⟨lr, _, _, hse, _⟩
  · rw [hse]; exact hnd
  · rw [hse, wlabels_insertRec]
    cases hc : (wlabels w).contains lr.1 with
    | true => simp only [ite_true]; exact hnd
    | false =>
      simp only [Bool.false_eq_true, ite_false]
      have hmem : lr.1 ∉ wlabels w := by
        intro hm
        rw [List.contains_eq_any_beq] at hc
        have : (wlabels w).any (lr.1 == ·) = true :=
          List.any_eq_true.mpr ⟨lr.1, hm, beq_self_eq_true lr.1⟩
        rw [hc] at this
        cases this
      simp [List.nodup_append, hnd, hmem]

theorem wlabels_foldl_nodup (items : List (String × Bool)) :
    ∀ w, (wlabels w).Nodup → (wlabels (items.foldl stepWeekOk w)).Nodup := by
  induction items with
  | nil => exact fun w h => h
  | cons e t ih =>
    intro w h
    exact ih _ (wlabels_stepWeekOk_nodup w e h)

theorem bucketOf_stepWeekOk (w : List (String × List DayRec))
    (e : String × Bool) (l : String) :
    bucketOf (stepWeekOk w e) l = bucketOf w l ++ (weekFilter l e).toList := by
  rcases stepWeekOk_eq w e with ⟨hse, hwf⟩ | ⟨lr, _, _, hse, hwf⟩
  · rw [hse, hwf l]; simp
  · rw [hse, hwf l, bucketOf_insertRec]
    by_cases hll : l = lr.1
    · rw [if_pos hll, if_pos hll.symm]; simp
    · rw [if_neg hll, if_neg (fun hh => hll hh.symm)]
      simp

theorem weekRecs_cons (e : String × Bool) (t : List (String × Bool))
    (l : String) :
    weekRecs (e :: t) l = (weekFilter l e).toList ++ weekRecs t l := by
  unfold weekRecs
  rw [List.filterMap_cons]
  cases weekFilter l e <;> simp

theorem bucketOf_foldl (items : List (String × Bool)) :
    ∀ (w : List (String × List DayRec)) (l : String),
      bucketOf (items.foldl stepWeekOk w) l
        = bucketOf w l ++ weekRecs items l := by
  induction items with
  | nil => intro w l; simp [weekRecs]
  | cons e t ih =>
    intro w l
    rw [List.foldl_cons, ih _ l, bucketOf_stepWeekOk w e l, weekRecs_cons,
      List.append_assoc]

theorem bucketOf_of_mem (w : List (String × List DayRec))
    (hnd : (wlabels w).Nodup) (b : String × List DayRec) (hb : b ∈ w) :
    bucketOf w b.1 = b.2 := by
  induction w with
  | nil => cases hb
  | cons c cs ih =>
    have hnd' := List.nodup_cons.mp (show (c.1 :: wlabels cs).Nodup from hnd)
    rcases List.mem_cons.mp hb with hbc | hbc
    · rw [hbc, bucketOf_cons, if_pos rfl]
    · have hne : ¬ c.1 = b.1 := by
        intro hh
        exact hnd'.1 (hh ▸ List.mem_map.mpr ⟨b, hbc, rfl⟩)
      rw [bucketOf_cons, if_neg hne]
      exact ih hnd'.2 hbc

theorem mem_of_bucketOf_ne_nil (w : List (String × List DayRec)) (l : String)
    (h : bucketOf w l ≠ []) :
    ∃ b ∈ w, b.1 = l ∧ b.2 = bucketOf w l := by
  induction w with
  | nil => exact absurd rfl h
  | cons c cs ih =>
    by_cases hc : c.1 = l
    · exact ⟨c, List.mem_cons_self c cs, hc, by rw [bucketOf_cons, if_pos hc]⟩
    · rw [bucketOf_cons, if_neg hc] at h ⊢
      obtain ⟨b, hb, h1, h2⟩ := ih h
      exact ⟨b, List.mem_cons_of_mem _ hb, h1, h2⟩

theorem insertRec_ne_nil (w : List (String × List DayRec)) (l : String)
    (r : DayRec) (h : ∀ b ∈ w, b.2 ≠ []) :
    ∀ b ∈ insertRec w l r, b.2 ≠ [] := by
  unfold insertRec
  cases hc : (w.map Prod.fst).contains l with
  | true =>
    simp only [hc, ite_true]
    intro b hb
    obtain ⟨b0, hb0, hbeq⟩ := List.mem_map.mp hb
    by_cases hb1 : b0.1 = l
    · rw [if_pos hb1] at hbeq
      rw [← hbeq]
      simp
    · rw [if_neg hb1] at hbeq
      rw [← hbeq]
      exact h b0 hb0
  | false =>
    simp only [hc, Bool.false_eq_true, ite_false]
    intro b hb
    rcases List.mem_append.mp hb with hb | hb
    · exact h b hb
    · rw [List.mem_singleton.mp hb]
      simp

theorem stepWeekOk_ne_nil (w : List (String × List DayRec))
    (e : String × Bool) (h : ∀ b ∈ w, b.2 ≠ []) :
    ∀ b ∈ stepWeekOk w e, b.2 ≠ [] := by
  rcases stepWeekOk_eq w e with ⟨hse, _⟩ | ⟨lr, _, _, hse, _⟩
  · rw [hse]; exact h
  · rw [hse]; exact insertRec_ne_nil w lr.1 lr.2 h

theorem foldl_ne_nil (items : List (String × Bool)) :
    ∀ w, (∀ b ∈ w, b.2 ≠ []) → ∀ b ∈ items.foldl stepWeekOk w, b.2 ≠ [] := by
  induction items with
  | nil => exact fun w h => h
  | cons e t ih =>
    intro w h
    exact ih _ (stepWeekOk_ne_nil w e h)

theorem bucketHeads_insertRec_mem (w : List (String × List DayRec))
    (l : String) (r : DayRec) (hc : (w.map Prod.fst).contains l = true)
    (hne : ∀ b ∈ w, b.2 ≠ []) :
    bucketHeads (insertRec w l r) = bucketHeads w := by
  unfold insertRec bucketHeads
  simp only [hc, ite_true]
  rw [List.filterMap_map]
  apply List.filterMap_congr
  intro b hb
  by_cases hbl : b.1 = l
  · simp only [Function.comp_apply, if_pos hbl]
    cases hb2 : b.2 with
    | nil => exact absurd hb2 (hne b hb)
    | cons x xs => simp [hb2]
  · simp only [Function.comp_apply, if_neg hbl]

theorem bucketHeads_append_new (w : List (String × List DayRec)) (l : String)
    (r : DayRec) :
    bucketHeads (w ++ [(l, [r])]) = bucketHeads w ++ [r.path] := by
  unfold bucketHeads
  rw [List.filterMap_append]
  rfl

theorem bucketHeads_foldl (items : List (String × Bool)) :
    ∀ w, (∀ b ∈ w, b.2 ≠ []) →
      List.Pairwise (fun a c => strLe c a) (bucketHeads w) →
      (∀ x ∈ items, ∀ hd ∈ bucketHeads w, strLe x.1 hd) →
      List.Pairwise nameGe items →
      List.Pairwise (fun a c => strLe c a)
        (bucketHeads (items.foldl stepWeekOk w)) := by
  induction items with
  | nil => exact fun w _ hp _ _ => hp
  | cons e t ih =>
    intro w hne hp hbnd hsort
    obtain ⟨hsort1, hsort2⟩ := List.pairwise_cons.mp hsort
    rw [List.foldl_cons]
    rcases stepWeekOk_eq w e with ⟨hse, _⟩ | ⟨lr, hwr, _, hse, _⟩
    · rw [hse]
      exact ih w hne hp (fun x hx => hbnd x (List.mem_cons_of_mem _ hx)) hsort2
    · rw [hse]
      have hrpath : lr.2.path = e.1 := toWeekRec_path hwr
      have hne' := insertRec_ne_nil w lr.1 lr.2 hne
      cases hc : (w.map Prod.fst).contains lr.1 with
      | true =>
        have hheads := bucketHeads_insertRec_mem w lr.1 lr.2 hc hne
        refine ih _ hne' ?_ ?_ hsort2
        · rw [hheads]; exact hp
        · rw [hheads]
          exact fun x hx => hbnd x (List.mem_cons_of_mem _ hx)
      | false =>
        have hheads : bucketHeads (insertRec w lr.1 lr.2)
            = bucketHeads w ++ [lr.2.path] := by
          unfold insertRec
          simp only [hc, Bool.false_eq_true, ite_false]
          exact bucketHeads_append_new w lr.1 lr.2
        refine ih _ hne' ?_ ?_ hsort2
        · rw [hheads, List.pairwise_append]
          refine ⟨hp, List.pairwise_singleton _ _, ?_⟩
          intro a ha b hb
          rw [List.mem_singleton.mp hb, hrpath]
          exact hbnd e (List.mem_cons_self _ _) a ha
        · rw [hheads]
          intro x hx hd hhd
          rcases List.mem_append.mp hhd with hhd | hhd
          · exact hbnd x (List.mem_cons_of_mem _ hx) hd hhd
          · rw [List.mem_singleton.mp hhd, hrpath]
            exact hsort1 x hx

theorem weekFilter_some {l : String} {e : String × Bool} {rec : DayRec}
    (h : weekFilter l e = some rec) :
    ∃ ymd, e.2 = true ∧ parseYMD e.1 = some ymd ∧
      rec = ⟨e.1, fmtDMY ymd⟩ ∧
      week_label ymd.1 ymd.2.1 ymd.2.2 = some l := by
  unfold weekFilter at h
  cases he : e.2
  · rw [he] at h
    simp at h
  · rw [he] at h
    simp only [ite_true] at h
    cases hw : toWeekRec e.1 with
    | error u =>
      rw [hw] at h
      simp only [] at h
      exact Option.noConfusion h
    | ok o =>
      cases o with
      | none =>
        rw [hw] at h
        simp only [] at h
        exact Option.noConfusion h
      | some lr =>
        rw [hw] at h
        simp only [] at h
        by_cases hl : lr.1 = l
        · rw [if_pos hl] at h
          have hrec : lr.2 = rec := by simpa using h
          unfold toWeekRec at hw
          cases hp : parseYMD e.1 with
          | none =>
            rw [hp] at hw
            simp at hw
          | some ymd =>
            rw [hp] at hw
            simp only [] at hw
            cases hlb : week_label ymd.1 ymd.2.1 ymd.2.2 with
            | none =>
              rw [hlb] at hw
              simp at hw
            | some label =>
              rw [hlb] at hw
              simp only [Except.ok.injEq, Option.some.injEq] at hw
              refine ⟨ymd, rfl, rfl, ?_, ?_⟩
              · rw [← hrec, ← hw]
              · rw [hlb, ← hl, ← hw]
        · rw [if_neg hl] at h
          exact Option.noConfusion h

theorem count_weekRecs (items : List (String × Bool)) (l : String)
    (r : DayRec) :
    (weekRecs items l).count r
      = items.countP (fun e => weekFilter l e == some r) := by
  induction items with
  | nil => rfl
  | cons e t ih =>
    rw [weekRecs_cons, List.countP_cons]
    cases hf : weekFilter l e with
    | none =>
      simp only [Option.toList, List.nil_append]
      rw [ih]
      simp [hf]
    | some x =>
      simp only [Option.toList, List.singleton_append]
      rw [List.count_cons, ih]
      simp [hf]

/-- C8: REFUTED as stated.  `strptime` accepts non-zero-padded month and
day tokens, so the day folders `2024-1-8` (January 8, a Monday) and
`2024-01-09` (January 9) both parse into the same week, but reverse
*string* sort puts `2024-1-8` first — the week's list ends up in
ascending date order, contradicting the claimed descending date order. -/
theorem c8_week_ordering_counterexample :
    group_by_weeks true [("2024-1-8", true), ("2024-01-09", true)]
        = .ok [("08/01/2024 - 14/01/2024",
            [⟨"2024-1-8", "08/01/2024"⟩, ⟨"2024-01-09", "09/01/2024"⟩])] ∧
      parseYMD "2024-1-8" = some (2024, 1, 8) ∧
      parseYMD "2024-01-09" = some (2024, 1, 9) ∧
      rataDie 2024 1 8 < rataDie 2024 1 9 := by
  refine ⟨by rfl, by decide, by decide, by decide⟩

/-- C8 (amended): whenever the aggregation completes without raising
(`group_by_weeks` returns `.ok W` — see C9 for the overflow failure
mode), then for day-directory listings with distinct names: every entry
that parses appears in exactly one week's list of `W` (exactly once)
under its — necessarily defined — week label; the label attached to
each record is the rendered Monday–Sunday span containing the record's
date (the Monday `rd - weekday(rd)` satisfies `weekday = 0` and
`monday ≤ rd ≤ monday + 6`, and the Sunday is `monday + 6`, both within
`date.min`/`date.max`); days within each week's list appear in
descending *name* order; and weeks are encountered in descending order
of their first member's name.  Name order coincides with date order
exactly when the parsed names are zero-padded; the counterexample shows
they may differ otherwise. -/
theorem c8_week_aggregator_amended (entries : List (String × Bool))
    (hnd : (entries.map Prod.fst).Nodup)
    (W : List (String × List DayRec))
    (hok : group_by_weeks true entries = .ok W) :
    (∀ nm ymd, (nm, true) ∈ entries → parseYMD nm = some ymd →
        ∃ l0, week_label ymd.1 ymd.2.1 ymd.2.2 = some l0 ∧
          (∃ b ∈ W, b.1 = l0 ∧
            b.2.count (⟨nm, fmtDMY ymd⟩ : DayRec) = 1) ∧
          ∀ b ∈ W, (⟨nm, fmtDMY ymd⟩ : DayRec) ∈ b.2 → b.1 = l0) ∧
    (wlabels W).Nodup ∧
    (∀ b ∈ W, ∀ rec ∈ b.2, ∃ ymd,
        parseYMD rec.path = some ymd ∧ rec.display = fmtDMY ymd ∧
        week_label ymd.1 ymd.2.1 ymd.2.2 = some b.1) ∧
    (∀ (y m d : Nat) (lbl : String), week_label y m d = some lbl →
        weekdayOf (rataDie y m d - weekdayOf (rataDie y m d)) = 0 ∧
        rataDie y m d - weekdayOf (rataDie y m d) ≤ rataDie y m d ∧
        rataDie y m d ≤ rataDie y m d - weekdayOf (rataDie y m d) + 6 ∧
        rataDie 1 1 1 ≤ rataDie y m d - weekdayOf (rataDie y m d) ∧
        rataDie y m d - weekdayOf (rataDie y m d) + 6 ≤ rataDie 9999 12 31 ∧
        lbl = fmtDMY (civilFromDays
                (rataDie y m d - weekdayOf (rataDie y m d)))
            ++ " - "
            ++ fmtDMY (civilFromDays
                (rataDie y m d - weekdayOf (rataDie y m d) + 6))) ∧
    (∀ b ∈ W, List.Pairwise (fun r1 r2 => strLe r2.path r1.path) b.2) ∧
    List.Pairwise (fun a c => strLe c a) (bucketHeads W) := by
  have hperm : (List.insertionSort nameGe entries).Perm entries :=
    List.perm_insertionSort nameGe entries
  have hok' : foldWeeks (List.insertionSort nameGe entries) (.ok []) = .ok W :=
    hok
  obtain ⟨hgood, hWeq⟩ :=
    foldWeeks_ok_inv (List.insertionSort nameGe entries) [] W hok'
  subst hWeq
  have hWnodup : (wlabels ((List.insertionSort nameGe entries).foldl
      stepWeekOk [])).Nodup :=
    wlabels_foldl_nodup _ [] (by simp [wlabels])
  have hWne : ∀ b ∈ (List.insertionSort nameGe entries).foldl stepWeekOk [],
      b.2 ≠ [] :=
    foldl_ne_nil _ [] (by simp)
  have hbucketW : ∀ l, bucketOf
      ((List.insertionSort nameGe entries).foldl stepWeekOk []) l
      = weekRecs (List.insertionSort nameGe entries) l := by
    intro l
    rw [bucketOf_foldl, bucketOf_nil, List.nil_append]
  have hsorted : List.Pairwise nameGe (List.insertionSort nameGe entries) :=
    List.sorted_insertionSort nameGe entries
  have hmemBucket : ∀ b ∈ (List.insertionSort nameGe entries).foldl
      stepWeekOk [],
      b.2 = weekRecs (List.insertionSort nameGe entries) b.1 := by
    intro b hb
    rw [← hbucketW b.1]
    exact (bucketOf_of_mem _ hWnodup b hb).symm
  refine ⟨?_, hWnodup, ?_, ?_, ?_, ?_⟩
  · -- exactly-one membership
    intro nm ymd hmem hparse
    have hmem' : (nm, true) ∈ List.insertionSort nameGe entries :=
      hperm.mem_iff.mpr hmem
    have hbad : badEntry (nm, true) = false := hgood _ hmem'
    obtain ⟨l0, hl0⟩ : ∃ l0, week_label ymd.1 ymd.2.1 ymd.2.2 = some l0 := by
      cases hlb : week_label ymd.1 ymd.2.1 ymd.2.2 with
      | some l0 => exact ⟨l0, rfl⟩
      | none =>
        have : badEntry (nm, true) = true :=
          (badEntry_iff _).mpr ⟨rfl, ymd, hparse, hlb⟩
        rw [this] at hbad
        cases hbad
    have htw : toWeekRec nm = .ok (some (l0, ⟨nm, fmtDMY ymd⟩)) := by
      unfold toWeekRec
      rw [hparse]
      simp only []
      rw [hl0]
    have hrec0 : weekFilter l0 (nm, true) = some ⟨nm, fmtDMY ymd⟩ := by
      unfold weekFilter
      simp only [ite_true]
      rw [show toWeekRec (nm, true).1 = .ok (some (l0, ⟨nm, fmtDMY ymd⟩))
        from htw]
      simp
    refine ⟨l0, hl0, ?_, ?_⟩
    · have hcountP : (List.insertionSort nameGe entries).countP
          (fun e => weekFilter l0 e
            == some (⟨nm, fmtDMY ymd⟩ : DayRec)) = 1 := by
        apply Nat.le_antisymm
        · have hmono : (List.insertionSort nameGe entries).countP
              (fun e => weekFilter l0 e
                == some (⟨nm, fmtDMY ymd⟩ : DayRec))
              ≤ (List.insertionSort nameGe entries).countP
                  (fun e => e.1 == nm) := by
            apply List.countP_mono_left
            intro e _ hcond
            obtain ⟨ymd', _, _, hreq, _⟩ := weekFilter_some (eq_of_beq hcond)
            have : nm = e.1 := congrArg DayRec.path hreq
            rw [← this]
            exact beq_self_eq_true nm
          refine le_trans hmono ?_
          have h1 : (List.insertionSort nameGe entries).countP
              (fun e => e.1 == nm)
              = ((List.insertionSort nameGe entries).map Prod.fst).count nm := by
            rw [List.count, List.countP_map]
            rfl
          rw [h1, (hperm.map Prod.fst).count_eq nm]
          exact List.nodup_iff_count_le_one.mp hnd nm
        · have hpos : 0 < (List.insertionSort nameGe entries).countP
              (fun e => weekFilter l0 e
                == some (⟨nm, fmtDMY ymd⟩ : DayRec)) :=
            List.countP_pos_iff.mpr
              ⟨(nm, true), hmem', by rw [hrec0]; exact beq_self_eq_true _⟩
          omega
      have hcount1 : (bucketOf ((List.insertionSort nameGe entries).foldl
          stepWeekOk []) l0).count (⟨nm, fmtDMY ymd⟩ : DayRec) = 1 := by
        rw [hbucketW, count_weekRecs, hcountP]
      have hr0mem : (⟨nm, fmtDMY ymd⟩ : DayRec) ∈ bucketOf
          ((List.insertionSort nameGe entries).foldl stepWeekOk []) l0 :=
        List.count_pos_iff.mp (by omega)
      have hbne : bucketOf
          ((List.insertionSort nameGe entries).foldl stepWeekOk []) l0
          ≠ [] := by
        intro hnil
        rw [hnil] at hr0mem
        exact List.not_mem_nil _ hr0mem
      obtain ⟨b, hbW, hbl, hbeq⟩ := mem_of_bucketOf_ne_nil _ _ hbne
      exact ⟨b, hbW, hbl, by rw [hbeq]; exact hcount1⟩
    · intro b' hb'W hr0b'
      rw [hmemBucket b' hb'W] at hr0b'
      obtain ⟨e, heItems, hef⟩ := List.mem_filterMap.mp hr0b'
      obtain ⟨ymd', _, hparse', hreq, hlabel⟩ := weekFilter_some hef
      have hepath : e.1 = nm := (congrArg DayRec.path hreq).symm
      rw [hepath] at hparse'
      rw [hparse] at hparse'
      have hymd : ymd' = ymd := by
        injection hparse' with hh
        exact hh.symm
      rw [hymd] at hlabel
      rw [hl0] at hlabel
      injection hlabel with hh
      exact hh.symm
  · -- label correctness for every record
    intro b hbW rec hrec
    rw [hmemBucket b hbW] at hrec
    obtain ⟨e, _, hef⟩ := List.mem_filterMap.mp hrec
    obtain ⟨ymd, _, hparse', hreq, hlabel⟩ := weekFilter_some hef
    refine ⟨ymd, ?_, ?_, hlabel⟩
    · rw [hreq]
      exact hparse'
    · rw [hreq]
  · -- Monday–Sunday span arithmetic and label shape
    intro y m d lbl h
    unfold week_label dateAdd at h
    simp only [] at h
    split at h
    · simp only [Option.some_bind] at h
      split at h
      · simp only [Option.map_some', Option.some.injEq] at h
        rename_i hc1 hc2
        refine ⟨?_, ?_, ?_, ?_, ?_, ?_⟩
        · unfold weekdayOf
          omega
        · unfold weekdayOf
          omega
        · unfold weekdayOf
          omega
        · omega
        · omega
        · exact h.symm
      · simp at h
    · simp at h
  · -- descending name order within each week
    intro b hbW
    rw [hmemBucket b hbW]
    unfold weekRecs
    refine List.Pairwise.filterMap (weekFilter b.1) ?_ hsorted
    intro a a' hraa' x hx y hy
    rw [Option.mem_def] at hx hy
    obtain ⟨_, _, _, hxeq, _⟩ := weekFilter_some hx
    obtain ⟨_, _, _, hyeq, _⟩ := weekFilter_some hy
    rw [hxeq, hyeq]
    exact hraa'
  · -- weeks encountered in descending first-member-name order
    refine bucketHeads_foldl _ [] (by simp) List.Pairwise.nil ?_ hsorted
    intro x _ hd hhd
    exact absurd hhd (List.not_mem_nil hd)

/-- Witness for C8 (amended): on the listing
`[("2024-01-08", true), ("junk", true)]` the aggregation succeeds, and
the parsed day `2024-01-08` lands in exactly one week bucket, labelled
`08/01/2024 - 14/01/2024`, exactly once. -/
theorem c8_week_aggregator_amended_witness :
    ∃ l0, week_label 2024 1 8 = some l0 ∧
      (∃ b ∈ [("08/01/2024 - 14/01/2024",
          [(⟨"2024-01-08", "08/01/2024"⟩ : DayRec)])],
        b.1 = l0 ∧
          b.2.count (⟨"2024-01-08", fmtDMY (2024, 1, 8)⟩ : DayRec) = 1) ∧
      ∀ b ∈ [("08/01/2024 - 14/01/2024",
          [(⟨"2024-01-08", "08/01/2024"⟩ : DayRec)])],
        (⟨"2024-01-08", fmtDMY (2024, 1, 8)⟩ : DayRec) ∈ b.2 → b.1 = l0 :=
  (c8_week_aggregator_amended [("2024-01-08", true), ("junk", true)]
      (by decide)
      [("08/01/2024 - 14/01/2024", [⟨"2024-01-08", "08/01/2024"⟩])]
      (by rfl)).1
    "2024-01-08" (2024, 1, 8) (by decide) (by decide)

end CSIViewer
